import Mathlib

/-!
Verification of the strings.rs text-rope library.

The development shallowly embeds the library's two components:

* `StringBuffer` (src/string_buffer.rs): a chunked append-only string buffer,
  a linked list of `StringNode` chunks with capacity doubling, together with
  its `push_str`, `truncate`, `cur_offset`, `clone` operations and the
  `Chars` decoding iterator.
* the rope engine (src/ropes/macros.rs plus the rope/src_rope modules):
  `Rope`, the `Node` tree, the `NodeAction` mutation algebra, `RopeSlice`
  and its byte iterator.

Bytes are modelled as `Nat` (a Rust `u8` value, always < 256 in real data;
no arithmetic here ever depends on the bound).  Rust text values (`String`,
`&str`) are modelled as `List Nat` of their UTF-8 bytes.  Code that can
abort the process (failed `assert!`, `panic!`, out-of-bounds indexing,
`unwrap` of `None`) is modelled with explicit result types: `PRes` carries
the state at the abort point (so theorems can state that an abort mutated
nothing), `CRes` marks a fatal abort of a read-only iterator.
-/

/-- Result of an operation on a structure that can abort the program:
either a normal result or a fatal abort (a Rust panic / failed assertion).
The structure's state at the abort point is carried by both constructors,
so that a theorem can state that an aborting call has mutated nothing. -/
inductive PRes (α : Type) where
  | ok (a : α)
  | fatal (a : α)

/-- Result of a read-only computation that can abort the program. -/
inductive CRes (α : Type) where
  | ok (a : α)
  | fatal

/-! ## StringBuffer (src/string_buffer.rs)

The Rust `StringBuffer` is a singly linked list of `StringNode`s starting at
`first`, plus a raw pointer `last` to the final node of the list (a cached
shortcut) and a cached total length `len`.  We model the node chain as a
`List StringNode` (head = `first`, last element = the node `last` points to;
the `last` pointer always designates the tail of the chain in every state
the public constructors and mutators produce).  A `StringNode` owns a
`String` whose bytes are `data` and whose allocated capacity is `cap`;
`String::shrink_to_fit` is modelled as setting `cap` to `data.length`. -/

def INIT_CAPACITY : Nat := 255

def MAX_CAPACITY : Nat := 65535

structure StringNode where
  data : List Nat
  cap : Nat

structure StringBuffer where
  nodes : List StringNode
  len : Nat

/-- Concatenation of all chunk contents: the text the buffer displays
(`impl fmt::Display for StringBuffer` writes every node's data in order). -/
def joinData : List StringNode → List Nat
  | [] => []
  | n :: ns => n.data ++ joinData ns

def StringBuffer.with_capacity (c : Nat) : StringBuffer :=
  { nodes := [⟨[], c⟩], len := 0 }

def StringBuffer.new : StringBuffer :=
  StringBuffer.with_capacity INIT_CAPACITY

/-- StringNode::push_str, lifted to the node chain: recurse to the final
node; if the text fits in its spare capacity append it there, otherwise
shrink the node and link a fresh node (capacity
min(max(shrunk capacity, INIT_CAPACITY) * 2, MAX_CAPACITY), but at least
the text length) holding the text.  The `[]` case cannot arise: a buffer
always has at least one node. -/
def pushStrNodes : List StringNode → List Nat → List StringNode
  | [], _ => []
  | [n], t =>
      if t.length ≤ n.cap - n.data.length then
        [⟨n.data ++ t, n.cap⟩]
      else
        let next_cap := max (min ((max n.data.length INIT_CAPACITY) * 2) MAX_CAPACITY) t.length
        [⟨n.data, n.data.length⟩, ⟨t, next_cap⟩]
  | n :: ns, t => n :: pushStrNodes ns t

def StringBuffer.push_str (b : StringBuffer) (t : List Nat) : StringBuffer :=
  { nodes := pushStrNodes b.nodes t, len := b.len + t.length }

/-- str::is_char_boundary, the check String::truncate asserts: index 0 is a
boundary; an in-range index is a boundary when its byte is not a UTF-8
continuation byte (i.e. is below 0x80 or at least 0xC0); an out-of-range
index is a boundary only when it equals the length. -/
def isCharBoundary (l : List Nat) (k : Nat) : Bool :=
  if k = 0 then true
  else
    match l.get? k with
    | none => k == l.length
    | some b => decide (b < 128) || decide (192 ≤ b)

/-- String::truncate: a no-op when new_len exceeds the current length;
otherwise it asserts that new_len is a char boundary — a panic (none) when
it is not — and keeps the first new_len bytes. -/
def stringTruncate (l : List Nat) (k : Nat) : Option (List Nat) :=
  if l.length < k then some l
  else if isCharBoundary l k then some (l.take k) else none

/-- StringNode::truncate, walking from `first`: if this node holds at least
`new_len` bytes, String::truncate it (which can panic on a char-boundary
violation, propagated as none) and drop the rest of the chain
(`next = None`); otherwise keep it and recurse.  The `[]` case is the Rust
`self.next.as_mut().unwrap()` panic on `None` (none here); it is
unreachable from any buffer whose cached `len` equals its text length. -/
def truncateNodes : List StringNode → Nat → Option (List StringNode)
  | [], _ => none
  | n :: ns, k =>
      if k ≤ n.data.length then
        match stringTruncate n.data k with
        | some d => some [⟨d, n.cap⟩]
        | none => none
      else
        match truncateNodes ns (k - n.data.length) with
        | some r => some (n :: r)
        | none => none

/-- Replace the data of the final node of the chain (the in-place
`last.truncate(..)` of StringBuffer::truncate). -/
def setLastData : List StringNode → List Nat → List StringNode
  | [], _ => []
  | [n], d => [⟨d, n.cap⟩]
  | n :: ns, d => n :: setLastData ns d

/-- Data of the node the `last` pointer designates (the tail of the chain). -/
def lastData (ns : List StringNode) : List Nat :=
  match ns.getLast? with
  | some n => n.data
  | none => []

/-- StringBuffer::truncate: a no-op when new_len is at least the cached
len; otherwise, when the cut falls inside the last node, String::truncate
that node in place, else truncate the chain from `first`.  Both paths call
String::truncate, whose char-boundary assertion can abort the program — a
fatal result carrying the unmutated buffer. -/
def StringBuffer.truncate (b : StringBuffer) (new_len : Nat) : PRes StringBuffer :=
  if b.len ≤ new_len then .ok b
  else
    let last := lastData b.nodes
    if b.len - new_len < last.length then
      match stringTruncate last (last.length - (b.len - new_len)) with
      | some d => .ok { nodes := setLastData b.nodes d, len := new_len }
      | none => .fatal b
    else
      match truncateNodes b.nodes new_len with
      | some ns => .ok { nodes := ns, len := new_len }
      | none => .fatal b

/-- Byte index of the last newline (0x0A) in a list, if any
(Rust `str::rfind` applied to a newline character). -/
def rfindNewline : List Nat → Option Nat
  | [] => none
  | a :: l =>
      match rfindNewline l with
      | some i => some (i + 1)
      | none => if a = 10 then some 0 else none

/-- StringNode::total_len: the length of the text stored in the chain
starting at this node. -/
def totalLenNodes : List StringNode → Nat
  | [] => 0
  | n :: ns => n.data.length + totalLenNodes ns

/-- StringNode::cur_offset on the chain starting at this node: first try
the following nodes, then the last newline of this node's data, reporting
total_len - i - 1. -/
def curOffsetNodes : List StringNode → Option Nat
  | [] => none
  | n :: ns =>
      match curOffsetNodes ns with
      | some r => some r
      | none =>
          match rfindNewline n.data with
          | some i => some (totalLenNodes (n :: ns) - i - 1)
          | none => none

/-- StringBuffer::cur_offset: try the node the `last` pointer designates,
then the whole chain from `first`, and fall back to the cached `len`. -/
def StringBuffer.cur_offset (b : StringBuffer) : Nat :=
  let lastTry :=
    match b.nodes.getLast? with
    | some n => curOffsetNodes [n]
    | none => none
  match lastTry with
  | some r => r
  | none =>
      match curOffsetNodes b.nodes with
      | some r => r
      | none => b.len

/-- StringNode::flat_clone: a clone of a single node without its link
(`String::clone` of the data allocates exactly the data's length). -/
def StringNode.flat_clone (n : StringNode) : StringNode :=
  ⟨n.data, n.data.length⟩

/-- impl Clone for StringBuffer.  The Rust loop is

    let mut last = &mut *result.first;
    let mut last_orig = &*self.first;
    while let Some(next_orig) = last_orig.next.as_ref() {
        last.next = Some(Box::new(next_orig.flat_clone()));
        last_orig = next_orig;
    }

`last` is never advanced, so every iteration overwrites `result.first.next`;
after the loop the clone consists of a flat clone of the first node followed
by a flat clone of the final original node only (every middle node's clone
has been overwritten and dropped).  `len` is copied verbatim, and
`result.last` is left pointing at the clone's first node. -/
def StringBuffer.clone (b : StringBuffer) : StringBuffer :=
  { nodes :=
      match b.nodes with
      | [] => []
      | a :: rest =>
          a.flat_clone ::
            (match rest.getLast? with
             | some z => [z.flat_clone]
             | none => [])
    len := b.len }

/-- The operations of the append-only buffer contract exercised by C9. -/
inductive SBOp where
  | push (t : List Nat)
  | trunc (n : Nat)

def applySBOp (b : StringBuffer) : SBOp → PRes StringBuffer
  | .push t => .ok (b.push_str t)
  | .trunc n => b.truncate n

/-- Run a sequence of buffer operations; a fatal abort (a char-boundary
panic inside truncate) stops the sequence and reports the state at the
abort point. -/
def applySBOps : List SBOp → StringBuffer → PRes StringBuffer
  | [], b => .ok b
  | op :: ops, b =>
      match applySBOp b op with
      | .ok b1 => applySBOps ops b1
      | .fatal b1 => .fatal b1

/-- The plain-string reference semantics of the same operation sequence:
push_str appends its argument, truncate keeps the first n bytes (hence a
no-op when n is at least the current length). -/
def stringApply : List SBOp → List Nat → List Nat
  | [], s => s
  | .push t :: ops, s => stringApply ops (s ++ t)
  | .trunc n :: ops, s => stringApply ops (s.take n)

/-- The number of bytes strictly after the last newline of a byte string,
or its full length when it has no newline (the claimed specification of
StringBuffer::cur_offset). -/
def lastLineOffset (s : List Nat) : Nat :=
  match rfindNewline s with
  | some i => s.length - i - 1
  | none => s.length

/-! ## Character iteration (struct Chars of src/string_buffer.rs)

A `Chars` iterator holds a reference to the node it is currently reading
(`cur_node`), the byte index inside that node and the absolute byte index
since the start of the buffer.  We model the current node together with the
not-yet-visited rest of the chain as a list of chunk contents.  Only the
chunk data is relevant to iteration, so the chunks are plain byte lists. -/

structure Chars where
  nodes : List (List Nat)
  cur_byte : Nat
  abs_byte : Nat

/-- Modelled from the spec: the external UTF-8 width-table lookup
`util::utf8_char_width` (byte to expected multi-byte sequence length,
0 for a byte that cannot start a UTF-8 sequence), which is not part of
this repository's sources.  This is the standard UTF-8 width table. -/
def utf8_char_width (b : Nat) : Nat :=
  if b ≤ 127 then 1
  else if b ≤ 193 then 0
  else if b ≤ 223 then 2
  else if b ≤ 239 then 3
  else if b ≤ 244 then 4
  else 0

/-- Chars::read_byte: index the current node's data at cur_byte and step
both byte counters.  Indexing out of bounds is a Rust panic, and a missing
current node cannot arise in Rust (the iterator always holds a node
reference); both are modelled as a fatal abort. -/
def Chars.read_byte (s : Chars) : CRes (Nat × Chars) :=
  match s.nodes with
  | [] => .fatal
  | d :: _ =>
      match d.get? s.cur_byte with
      | some b =>
          .ok (b, { s with cur_byte := s.cur_byte + 1, abs_byte := s.abs_byte + 1 })
      | none => .fatal

/-- Read k further bytes with Chars::read_byte (the collection loop of
Chars::read_char). -/
def Chars.read_bytes : Nat → Chars → CRes (List Nat × Chars)
  | 0, s => .ok ([], s)
  | k + 1, s =>
      match s.read_byte with
      | .fatal => .fatal
      | .ok (b, s1) =>
          match Chars.read_bytes k s1 with
          | .fatal => .fatal
          | .ok (bs, s2) => .ok (b :: bs, s2)

/-- Modelled from the spec: `std::str::from_utf8` applied to the collected
bytes of one expected character, followed by taking its first char — i.e.
standard UTF-8 decoding of a single code point (continuation bytes in
0x80..=0xBF, no overlong encodings, no surrogates, at most U+10FFFF);
`none` is a decode failure. -/
def decodeUtf8 : List Nat → Option Nat
  | [a] => if a ≤ 127 then some a else none
  | [a, b] =>
      if 194 ≤ a ∧ a ≤ 223 ∧ 128 ≤ b ∧ b ≤ 191 then
        some ((a - 192) * 64 + (b - 128))
      else none
  | [a, b, c] =>
      if ((a = 224 ∧ 160 ≤ b ∧ b ≤ 191) ∨
          (225 ≤ a ∧ a ≤ 236 ∧ 128 ≤ b ∧ b ≤ 191) ∨
          (a = 237 ∧ 128 ≤ b ∧ b ≤ 159) ∨
          (238 ≤ a ∧ a ≤ 239 ∧ 128 ≤ b ∧ b ≤ 191)) ∧
         128 ≤ c ∧ c ≤ 191 then
        some ((a - 224) * 4096 + (b - 128) * 64 + (c - 128))
      else none
  | [a, b, c, d] =>
      if ((a = 240 ∧ 144 ≤ b ∧ b ≤ 191) ∨
          (241 ≤ a ∧ a ≤ 243 ∧ 128 ≤ b ∧ b ≤ 191) ∨
          (a = 244 ∧ 128 ≤ b ∧ b ≤ 143)) ∧
         128 ≤ c ∧ c ≤ 191 ∧ 128 ≤ d ∧ d ≤ 191 then
        some ((a - 240) * 262144 + (b - 128) * 4096 + (c - 128) * 64 + (d - 128))
      else none
  | _ => none

/-- Chars::read_char: read the leading byte, look up its width; width 1
returns the byte as the char, width 0 is the fatal
panic!("non-utf8 char in StringBuffer"); otherwise collect the remaining
width - 1 bytes and decode, a decode failure being the fatal
panic!("bad chars in StringBuffer"). -/
def Chars.read_char (s : Chars) : CRes (Nat × Chars) :=
  match s.read_byte with
  | .fatal => .fatal
  | .ok (b, s1) =>
      let width := utf8_char_width b
      if width = 1 then .ok (b, s1)
      else if width = 0 then .fatal
      else
        match Chars.read_bytes (width - 1) s1 with
        | .fatal => .fatal
        | .ok (bs, s2) =>
            match decodeUtf8 (b :: bs) with
            | some c => .ok (c, s2)
            | none => .fatal

/-- Iterator::next for Chars, with explicit fuel for the node-skipping
while loop (one unit per node; `Chars.next` supplies enough).  While the
current byte index is past the current node, advance to the next node or
report exhaustion with ok none; otherwise read one character and emit it
with its absolute byte offset. -/
def Chars.nextGo : Nat → Chars → CRes (Option ((Nat × Nat) × Chars))
  | 0, _ => .ok none
  | k + 1, s =>
      match s.nodes with
      | [] => .ok none
      | d :: rest =>
          if d.length ≤ s.cur_byte then
            match rest with
            | [] => .ok none
            | _ => Chars.nextGo k { nodes := rest, cur_byte := 0, abs_byte := s.abs_byte }
          else
            match s.read_char with
            | .fatal => .fatal
            | .ok (c, s1) => .ok (some ((c, s.abs_byte), s1))

def Chars.next (s : Chars) : CRes (Option ((Nat × Nat) × Chars)) :=
  Chars.nextGo s.nodes.length s

/-! ## The rope engine (src/ropes/macros.rs and the rope modules)

The two rope variants share one tree algebra over different leaf payloads;
only the byte content of a leaf matters to the specified behavior, so a
leaf carries its bytes.  The tree type follows the data model: a node is a
leaf chunk or an internal node owning an ordered sequence of children plus
a cached subtree byte length. -/

mutual

inductive Node where
  | leaf (data : List Nat)
  | internal (children : NodeList) (len : Nat)

inductive NodeList where
  | nil
  | cons (head : Node) (tail : NodeList)

end

/-! The materialized text of a subtree: its leaf chunks in order. -/
mutual

def Node.text : Node → List Nat
  | .leaf d => d
  | .internal cs _ => cs.textL

def NodeList.textL : NodeList → List Nat
  | .nil => []
  | .cons n ns => n.text ++ ns.textL

end

/-! The sum of the byte lengths of all leaf chunks of a subtree. -/
mutual

def Node.leafSum : Node → Nat
  | .leaf d => d.length
  | .internal cs _ => cs.leafSumL

def NodeList.leafSumL : NodeList → Nat
  | .nil => 0
  | .cons n ns => n.leafSum + ns.leafSumL

end

/-! The leaf chunks of a subtree, in document order. -/
mutual

def Node.leaves : Node → List (List Nat)
  | .leaf d => [d]
  | .internal cs _ => cs.leavesL

def NodeList.leavesL : NodeList → List (List Nat)
  | .nil => []
  | .cons n ns => n.leaves ++ ns.leavesL

end

/-- Node::empty_inner: an internal node with no children and length 0
(what remove_inner installs as the root when the whole tree is removed). -/
def Node.empty_inner : Node :=
  Node.internal .nil 0

/-- NodeAction: the result every recursive tree mutation reports to its
parent.  Rust mutates subtrees in place, so its Adjust(delta) leaves the
new subtree behind the caller's reference; the functional model carries
the updated subtree in the adjust constructor as well. -/
inductive NodeAction where
  | none
  | remove
  | adjust (node : Node) (delta : Int)
  | change (node : Node) (delta : Int)

/-- The maximum leaf chunk size before an insert splits a leaf.  An
internal tuning constant of the rope modules (not part of the external
contract); any positive value satisfies the spec. -/
def maxChunk : Nat := 64

/-! Modelled from the spec: Node::insert of the rope modules (not under
src/).  Recurse to the leaf containing the offset (offsets on a child
boundary go to the left child); splice the text into the leaf's data, and
split the leaf in two when it would exceed the maximum chunk size; an
internal node updates its cached length.  Inserting past the end of an
empty child sequence creates a fresh leaf. -/
mutual

def Node.insertN : Node → Nat → List Nat → Node
  | .leaf d, off, t =>
      let d1 := d.take off ++ t ++ d.drop off
      if maxChunk < d1.length then
        Node.internal
          (.cons (.leaf (d1.take (d1.length / 2)))
            (.cons (.leaf (d1.drop (d1.length / 2))) .nil))
          d1.length
      else .leaf d1
  | .internal cs len, off, t => .internal (NodeList.insertL cs off t) (len + t.length)

def NodeList.insertL : NodeList → Nat → List Nat → NodeList
  | .nil, _, t => .cons (.leaf t) .nil
  | .cons c cs, off, t =>
      if off ≤ c.leafSum then .cons (c.insertN off t) cs
      else .cons c (NodeList.insertL cs (off - c.leafSum) t)

end

/-! Modelled from the spec: Node::remove of the rope modules (not under
src/).  Walk all children overlapping [s, e): leaves entirely inside the
range report remove; partially overlapping leaves are spliced and report
adjust with the (negative) length delta; an internal node whose children
all vanished reports remove, otherwise it reports change with its rebuilt
child sequence, updated cached length and the aggregate delta. -/
mutual

def Node.removeN : Node → Nat → Nat → NodeAction
  | .leaf d, s, e =>
      if s = 0 ∧ d.length ≤ e then .remove
      else .adjust (.leaf (d.take s ++ d.drop e)) ((s : Int) - (min e d.length : Nat))
  | .internal cs len, s, e =>
      let r := NodeList.removeL cs s e
      match r.1 with
      | .nil => .remove
      | cs1 => .change (.internal cs1 (((len : Int) + r.2).toNat)) r.2

def NodeList.removeL : NodeList → Nat → Nat → NodeList × Int
  | .nil, _, _ => (.nil, 0)
  | .cons c cs, s, e =>
      let cl := c.leafSum
      if cl ≤ s then
        let r := NodeList.removeL cs (s - cl) (e - cl)
        (.cons c r.1, r.2)
      else
        let ca := c.removeN s (min e cl)
        let rt := if cl < e then NodeList.removeL cs 0 (e - cl) else (cs, 0)
        match ca with
        | .remove => (rt.1, rt.2 - (cl : Int))
        | .adjust n d => (.cons n rt.1, rt.2 + d)
        | .change n d => (.cons n rt.1, rt.2 + d)
        | .none => (.cons c rt.1, rt.2)

end

/-! Modelled from the spec: Node::replace of the rope modules (not under
src/), the general-purpose string-replace primitive at the byte level: an
in-place overwrite of [s, s + t.length) that never changes any length.  A
leaf overwrites its bytes; a child sequence splits the replacement text at
child boundaries. -/
mutual

def Node.replaceN : Node → Nat → List Nat → Node
  | .leaf d, s, t => .leaf (d.take s ++ t ++ d.drop (s + t.length))
  | .internal cs len, s, t => .internal (NodeList.replaceL cs s t) len

def NodeList.replaceL : NodeList → Nat → List Nat → NodeList
  | .nil, _, _ => .nil
  | .cons c cs, s, t =>
      let cl := c.leafSum
      if cl ≤ s then .cons c (NodeList.replaceL cs (s - cl) t)
      else if s + t.length ≤ cl then .cons (c.replaceN s t) cs
      else
        .cons (c.replaceN s (t.take (cl - s)))
          (NodeList.replaceL cs 0 (t.drop (cl - s)))

end

/-- Rope: the root node and the cached total byte length. -/
structure Rope where
  root : Node
  len : Nat

def Rope.new : Rope :=
  { root := Node.empty_inner, len := 0 }

/-- Rope::remove_inner (src/ropes/macros.rs): assert end >= start (a Rust
assert!, fatal and mutating nothing when it fails); return unchanged when
start = end; otherwise run the removal closure and fold its NodeAction
into the rope: remove installs an empty root and zeroes len, adjust and
change install the (in Rust: in-place mutated, resp. replacement) node and
apply the signed delta to len. -/
def Rope.remove_inner (r : Rope) (start e : Nat) (do_remove : Rope → NodeAction) :
    PRes Rope :=
  if e < start then .fatal r
  else if start = e then .ok r
  else
    match do_remove r with
    | .none => .ok r
    | .remove => .ok { root := Node.empty_inner, len := 0 }
    | .adjust n adj => .ok { root := n, len := ((r.len : Int) + adj).toNat }
    | .change n adj => .ok { root := n, len := ((r.len : Int) + adj).toNat }

/-- Rope::remove: validate 0 <= start <= end <= len (out-of-range offsets
are fatal precondition violations validated before mutation begins), then
delegate to remove_inner with the recursive Node removal. -/
def Rope.remove (r : Rope) (start e : Nat) : PRes Rope :=
  if r.len < e then .fatal r
  else r.remove_inner start e (fun rp => rp.root.removeN start e)

/-- Rope::replace_str (src/ropes/macros.rs): assert
start + new_str.len() <= len (fatal, mutating nothing, when violated),
then overwrite in place via Node::replace; the cached len is not touched. -/
def Rope.replace_str (r : Rope) (start : Nat) (new_str : List Nat) : PRes Rope :=
  if start + new_str.length ≤ r.len then
    .ok { root := r.root.replaceN start new_str, len := r.len }
  else .fatal r

/-- Rope::insert: validate 0 <= offset <= len (fatal otherwise), splice
the text in via Node::insert, and grow the cached len by the text's byte
length.  The Node recursion is modelled from the spec (the rope modules
are not under src/). -/
def Rope.insert (r : Rope) (off : Nat) (t : List Nat) : PRes Rope :=
  if off ≤ r.len then
    .ok { root := r.root.insertN off t, len := r.len + t.length }
  else .fatal r

/-- RopeSlice (generate_ropeslice_struct in src/ropes/macros.rs): the leaf
chunks overlapping the sliced range in order (each chunk modelled by its
bytes; the Lnode len field always equals the byte count of its text), the
start offset in the first chunk, the length of sliced text in the last
chunk, and the two iteration cursors. -/
structure RopeSlice where
  nodes : List (List Nat)
  start : Nat
  len : Nat
  cur_byte : Nat
  cur_node : Nat

/-- RopeSlice::empty. -/
def RopeSlice.empty : RopeSlice :=
  { nodes := [], start := 0, len := 0, cur_byte := 0, cur_node := 0 }

/-- Iterator::next for RopeSlice (src/ropes/macros.rs), with explicit fuel
for its tail recursion (one unit per node; `RopeSlice.next` supplies
enough).  A faithful transcription: return None past the last node; on the
first byte of the first node jump the cursor by `start`; on the last node,
only when `start > 0`, return None once cur_byte + 1 exceeds
node.len - start (note: the node's length minus the first node's trim —
the slice's own `len` field is never consulted); skip to the next node
when the cursor is past the current one; otherwise yield the byte under
the cursor. -/
def RopeSlice.nextGo : Nat → RopeSlice → Option (Nat × RopeSlice)
  | 0, _ => none
  | k + 1, st =>
      if st.nodes.length ≤ st.cur_node then none
      else
        let node := st.nodes.getD st.cur_node []
        let len := node.length
        let st1 :=
          if st.cur_node = 0 ∧ st.cur_byte = 0 ∧ 0 < st.start then
            { st with cur_byte := st.cur_byte + st.start }
          else st
        if st1.cur_node = st1.nodes.length - 1 ∧ 0 < st1.start ∧
            len - st1.start < st1.cur_byte + 1 then
          none
        else if len ≤ st1.cur_byte then
          RopeSlice.nextGo k { st1 with cur_byte := 0, cur_node := st1.cur_node + 1 }
        else
          some (node.getD st1.cur_byte 0, { st1 with cur_byte := st1.cur_byte + 1 })

def RopeSlice.next (st : RopeSlice) : Option (Nat × RopeSlice) :=
  RopeSlice.nextGo (st.nodes.length + 1 - st.cur_node) st

/-- Drive the RopeSlice iterator, collecting at most `fuel` bytes. -/
def RopeSlice.bytes : Nat → RopeSlice → List Nat
  | 0, _ => []
  | k + 1, st =>
      match st.next with
      | some (b, st1) => b :: RopeSlice.bytes k st1
      | none => []

/-- Modelled from the spec: Node::find_slice of the rope modules (not
under src/), expressed over the flattened leaf sequence.  Walk the leaves
with the range kept relative to the current position: skip leaves that end
at or before the range start; the first retained leaf fixes the start
trim; stop at the leaf in which the range ends, recording how many of its
leading bytes belong to the slice (end_len); collect every leaf in
between.  Returns (chunks, start trim, end_len). -/
def findSliceAux : List (List Nat) → Nat → Nat → List (List Nat) × Nat × Nat
  | [], _, _ => ([], 0, 0)
  | d :: ds, s, e =>
      if d.length ≤ s then findSliceAux ds (s - d.length) (e - d.length)
      else if e ≤ d.length then ([d], s, e)
      else
        let r := findSliceAux ds 0 (e - d.length)
        (d :: r.1, s, r.2.2)

/-- Rope::slice (src/ropes/macros.rs): the canonical empty slice when
start = end, otherwise collect the overlapping leaves via find_slice with
fresh cursors. -/
def Rope.slice (r : Rope) (start e : Nat) : RopeSlice :=
  if start = e then RopeSlice.empty
  else
    let t := findSliceAux r.root.leaves start e
    { nodes := t.1, start := t.2.1, len := t.2.2, cur_byte := 0, cur_node := 0 }

/-- The mutation operations of claim C2. -/
inductive RopeOp where
  | ins (off : Nat) (t : List Nat)
  | rem (s e : Nat)
  | rep (s : Nat) (t : List Nat)

def applyRopeOp (r : Rope) : RopeOp → PRes Rope
  | .ins off t => r.insert off t
  | .rem s e => r.remove s e
  | .rep s t => r.replace_str s t

/-- Run a sequence of mutations; a fatal abort stops the sequence (the
process is gone) and reports the state at the abort point. -/
def applyRopeOps : List RopeOp → Rope → PRes Rope
  | [], r => .ok r
  | op :: ops, r =>
      match applyRopeOp r op with
      | .ok r1 => applyRopeOps ops r1
      | .fatal r1 => .fatal r1


/-- The contract of a NodeAction returned by Node::remove for a range
[s, e) of a subtree with original text `orig`: the surviving text is
`orig` with [s, e) excised, and a carried delta is s - e.  Used to state
the removal lemmas. -/
def removeResultOk (orig : List Nat) (s e : Nat) : NodeAction → Prop
  | .none => False
  | .remove => orig.take s ++ orig.drop e = []
  | .adjust m d => m.text = orig.take s ++ orig.drop e ∧ d = (s : Int) - (e : Int)
  | .change m d => m.text = orig.take s ++ orig.drop e ∧ d = (s : Int) - (e : Int)

/-! ## Theorems -/

/-- Mutual induction principle for Node and NodeList. -/
theorem node_nodelist_ind (P : Node → Prop) (Q : NodeList → Prop)
    (hleaf : ∀ d, P (.leaf d))
    (hint : ∀ cs len, Q cs → P (.internal cs len))
    (hnil : Q .nil)
    (hcons : ∀ n ns, P n → Q ns → Q (.cons n ns)) :
    (∀ n, P n) ∧ (∀ cs, Q cs) :=
  ⟨fun n => Node.rec hleaf hint hnil hcons n, fun cs => NodeList.rec hleaf hint hnil hcons cs⟩

theorem joinData_append (xs ys : List StringNode) :
    joinData (xs ++ ys) = joinData xs ++ joinData ys := by
  induction xs with
  | nil => simp [joinData]
  | cons n ns ih => simp [joinData, ih]

theorem pushStrNodes_spec (t : List Nat) :
    ∀ ns : List StringNode, ns ≠ [] →
      joinData (pushStrNodes ns t) = joinData ns ++ t ∧ pushStrNodes ns t ≠ [] := by
  intro ns
  induction ns with
  | nil => intro h; exact absurd rfl h
  | cons n ns ih =>
      intro _
      cases ns with
      | nil =>
          by_cases hfit : t.length ≤ n.cap - n.data.length
          · simp [pushStrNodes, hfit, joinData]
          · simp [pushStrNodes, hfit, joinData]
      | cons m ms =>
          have h2 := ih (by simp)
          simp [pushStrNodes, joinData, h2.1, h2.2]

theorem stringTruncate_take (l : List Nat) (k : Nat) (d : List Nat)
    (h : stringTruncate l k = some d) : d = l.take k := by
  unfold stringTruncate at h
  split at h
  · rename_i h1
    injection h with h2
    subst h2
    exact (List.take_of_length_le (Nat.le_of_lt h1)).symm
  · split at h
    · injection h with h2
      exact h2.symm
    · exact absurd h (by simp)

theorem truncateNodes_spec :
    ∀ (ns : List StringNode) (k : Nat) (r : List StringNode),
      truncateNodes ns k = some r →
        joinData r = (joinData ns).take k ∧ r ≠ [] := by
  intro ns
  induction ns with
  | nil => intro k r h; simp [truncateNodes] at h
  | cons n ns ih =>
      intro k r h
      by_cases hsmall : k ≤ n.data.length
      · simp only [truncateNodes, if_pos hsmall] at h
        cases hst : stringTruncate n.data k with
        | none => rw [hst] at h; exact absurd h (by simp)
        | some d =>
            rw [hst] at h
            injection h with h2
            subst h2
            have hd := stringTruncate_take n.data k d hst
            subst hd
            refine ⟨?_, by simp⟩
            simp [joinData, List.take_append_of_le_length hsmall]
      · simp only [truncateNodes, if_neg hsmall] at h
        cases hrec : truncateNodes ns (k - n.data.length) with
        | none => rw [hrec] at h; exact absurd h (by simp)
        | some r1 =>
            rw [hrec] at h
            injection h with h2
            subst h2
            have hr1 := ih (k - n.data.length) r1 hrec
            refine ⟨?_, by simp⟩
            simp only [joinData, hr1.1]
            rw [List.take_append_eq_append_take,
              List.take_of_length_le (by omega : n.data.length ≤ k)]

theorem setLastData_spec (d : List Nat) :
    ∀ ns : List StringNode, ns ≠ [] →
      joinData (setLastData ns d) = joinData ns.dropLast ++ d ∧ setLastData ns d ≠ [] := by
  intro ns
  induction ns with
  | nil => intro h; exact absurd rfl h
  | cons n ns ih =>
      intro _
      cases ns with
      | nil => simp [setLastData, joinData]
      | cons m ms =>
          have h2 := ih (by simp)
          refine ⟨?_, by simp [setLastData]⟩
          simp [setLastData, joinData, h2.1, List.dropLast_cons_of_ne_nil]

theorem joinData_decomp (ns : List StringNode) (h : ns ≠ []) :
    joinData ns = joinData ns.dropLast ++ lastData ns := by
  induction ns with
  | nil => exact absurd rfl h
  | cons n ns ih =>
      cases ns with
      | nil => simp [joinData, lastData]
      | cons m ms =>
          have hl : lastData (n :: m :: ms) = lastData (m :: ms) := by
            simp [lastData, List.getLast?_cons_cons]
          have hd : (n :: m :: ms).dropLast = n :: (m :: ms).dropLast := by
            simp
          rw [hl, hd]
          show n.data ++ joinData (m :: ms) = joinData (n :: (m :: ms).dropLast) ++ lastData (m :: ms)
          rw [ih (by simp)]
          simp [joinData]

theorem push_str_spec (b : StringBuffer) (t : List Nat) (h : b.nodes ≠ []) :
    joinData (b.push_str t).nodes = joinData b.nodes ++ t ∧
      (b.push_str t).len = b.len + t.length ∧ (b.push_str t).nodes ≠ [] := by
  have hp := pushStrNodes_spec t b.nodes h
  exact ⟨hp.1, rfl, hp.2⟩

theorem truncate_spec (b : StringBuffer) (k : Nat) (h : b.nodes ≠ [])
    (hlen : b.len = (joinData b.nodes).length) (b2 : StringBuffer)
    (hok : b.truncate k = .ok b2) :
    joinData b2.nodes = (joinData b.nodes).take k ∧
      b2.len = ((joinData b.nodes).take k).length ∧
      b2.nodes ≠ [] := by
  by_cases hno : b.len ≤ k
  · simp only [StringBuffer.truncate, if_pos hno] at hok
    injection hok with h2
    subst h2
    have htake : (joinData b.nodes).take k = joinData b.nodes :=
      List.take_of_length_le (by omega)
    rw [htake]
    exact ⟨rfl, hlen, h⟩
  · have hk : k < (joinData b.nodes).length := by omega
    have hdec := joinData_decomp b.nodes h
    have hLlen : (joinData b.nodes).length =
        (joinData b.nodes.dropLast).length + (lastData b.nodes).length := by
      rw [hdec]; simp
    by_cases hbig : b.len - k < (lastData b.nodes).length
    · simp only [StringBuffer.truncate, if_neg hno, if_pos hbig] at hok
      cases hst : stringTruncate (lastData b.nodes)
          ((lastData b.nodes).length - (b.len - k)) with
      | none => rw [hst] at hok; exact absurd hok (by simp)
      | some d =>
          rw [hst] at hok
          injection hok with h2
          subst h2
          have hd := stringTruncate_take _ _ _ hst
          subst hd
          have hsl := setLastData_spec
            ((lastData b.nodes).take ((lastData b.nodes).length - (b.len - k))) b.nodes h
          have hPk : (joinData b.nodes.dropLast).length ≤ k := by omega
          refine ⟨?_, ?_, hsl.2⟩
          · rw [hsl.1, hdec, List.take_append_eq_append_take,
              List.take_of_length_le hPk]
            congr 2
            omega
          · simp only [List.length_take]
            omega
    · simp only [StringBuffer.truncate, if_neg hno, if_neg hbig] at hok
      cases htr : truncateNodes b.nodes k with
      | none => rw [htr] at hok; exact absurd hok (by simp)
      | some ns1 =>
          rw [htr] at hok
          injection hok with h2
          subst h2
          have hns := truncateNodes_spec b.nodes k ns1 htr
          refine ⟨hns.1, ?_, hns.2⟩
          simp only [List.length_take]
          omega

theorem applySBOps_sim (ops : List SBOp) :
    ∀ b : StringBuffer, b.nodes ≠ [] → b.len = (joinData b.nodes).length →
      ∀ b2, applySBOps ops b = .ok b2 →
        joinData b2.nodes = stringApply ops (joinData b.nodes) ∧
          b2.len = (stringApply ops (joinData b.nodes)).length ∧
          b2.nodes ≠ [] := by
  induction ops with
  | nil =>
      intro b h hlen b2 hok
      simp only [applySBOps] at hok
      injection hok with h2
      subst h2
      exact ⟨rfl, hlen, h⟩
  | cons op ops ih =>
      intro b h hlen b2 hok
      simp only [applySBOps] at hok
      cases op with
      | push t =>
          simp only [applySBOp] at hok
          have hp := push_str_spec b t h
          have hinv : (b.push_str t).len = (joinData (b.push_str t).nodes).length := by
            rw [hp.1, hp.2.1, hlen]; simp
          have := ih (b.push_str t) hp.2.2 hinv b2 hok
          simpa [stringApply, hp.1] using this
      | trunc n =>
          simp only [applySBOp] at hok
          cases htr : b.truncate n with
          | fatal b1 => rw [htr] at hok; exact absurd hok (by simp)
          | ok b1 =>
              rw [htr] at hok
              have ht := truncate_spec b n h hlen b1 htr
              have := ih b1 ht.2.2 (by rw [ht.1, ht.2.1]) b2 hok
              simpa [stringApply, ht.1] using this

/-- C9 counterexample: the claim as stated fails on the code.  Applying
push_str of the two UTF-8 bytes of a two-byte character and then
truncate(1) from StringBuffer::new() aborts the program — both truncate
paths call String::truncate, whose char-boundary assertion panics at byte
index 1 — instead of producing a buffer displaying the first byte, which
is what the plain-byte-string reference semantics yields. -/
theorem c9_truncate_char_boundary_counterexample :
    applySBOps [.push [195, 169], .trunc 1] StringBuffer.new =
      .fatal (StringBuffer.new.push_str [195, 169]) ∧
    stringApply [.push [195, 169], .trunc 1] [] = [195] :=
  ⟨rfl, rfl⟩

/-- C9 (amended): for every finite sequence of push_str and truncate
operations starting from StringBuffer::new() that runs to completion
(String::truncate aborts the program when the cut position is not a char
boundary), the buffer's displayed text equals the result of applying the
same sequence to a plain byte string (push_str appends its argument;
truncate(n) keeps the first n bytes, hence is a no-op when n is at least
the current length), and the buffer's len field equals that text's byte
length. -/
theorem c9_string_buffer_refines_string (ops : List SBOp) (b : StringBuffer)
    (h : applySBOps ops StringBuffer.new = .ok b) :
    joinData b.nodes = stringApply ops [] ∧
      b.len = (stringApply ops []).length := by
  have hs := applySBOps_sim ops StringBuffer.new
    (by simp [StringBuffer.new, StringBuffer.with_capacity])
    (by simp [StringBuffer.new, StringBuffer.with_capacity, joinData]) b h
  simp only [StringBuffer.new, StringBuffer.with_capacity, joinData] at hs
  exact ⟨hs.1, hs.2.1⟩

theorem c9_string_buffer_refines_string_witness :
    joinData (StringBuffer.mk [⟨[72], 255⟩] 1).nodes =
        stringApply [.push [72, 105], .trunc 1] [] ∧
      (StringBuffer.mk [⟨[72], 255⟩] 1).len =
        (stringApply [.push [72, 105], .trunc 1] []).length :=
  c9_string_buffer_refines_string [.push [72, 105], .trunc 1]
    (StringBuffer.mk [⟨[72], 255⟩] 1) rfl

theorem rfindNewline_lt_length (l : List Nat) (i : Nat) (h : rfindNewline l = some i) :
    i < l.length := by
  induction l generalizing i with
  | nil => simp [rfindNewline] at h
  | cons a l ih =>
      simp only [rfindNewline] at h
      cases hr : rfindNewline l with
      | some j =>
          rw [hr] at h
          cases h
          have := ih j hr
          simp; omega
      | none =>
          rw [hr] at h
          by_cases ha : a = 10
          · simp [ha] at h; cases h; simp
          · simp [ha] at h

theorem rfindNewline_cons (x : Nat) (l : List Nat) :
    rfindNewline (x :: l) =
      match rfindNewline l with
      | some i => some (i + 1)
      | none => if x = 10 then some 0 else none := rfl

theorem rfindNewline_append_some (a b : List Nat) (j : Nat) (h : rfindNewline b = some j) :
    rfindNewline (a ++ b) = some (a.length + j) := by
  induction a with
  | nil => simpa using h
  | cons x a ih =>
      rw [List.cons_append, rfindNewline_cons, ih]
      simp only [Option.some.injEq, List.length_cons]
      omega

theorem rfindNewline_append_none (a b : List Nat) (h : rfindNewline b = none) :
    rfindNewline (a ++ b) = rfindNewline a := by
  induction a with
  | nil => simpa using h
  | cons x a ih => rw [List.cons_append, rfindNewline_cons, ih, rfindNewline_cons]

theorem totalLenNodes_eq (ns : List StringNode) :
    totalLenNodes ns = (joinData ns).length := by
  induction ns with
  | nil => simp [totalLenNodes, joinData]
  | cons n ns ih => simp [totalLenNodes, joinData, ih]

theorem curOffsetNodes_eq (ns : List StringNode) :
    curOffsetNodes ns = (rfindNewline (joinData ns)).map
      (fun i => (joinData ns).length - i - 1) := by
  induction ns with
  | nil => simp [curOffsetNodes, joinData, rfindNewline]
  | cons n ns ih =>
      cases hr : rfindNewline (joinData ns) with
      | some j =>
          have hfull := rfindNewline_append_some n.data (joinData ns) j hr
          have hj := rfindNewline_lt_length _ _ hr
          simp only [curOffsetNodes, ih, hr, Option.map_some, joinData, hfull]
          simp [List.length_append]
          omega
      | none =>
          have hfull := rfindNewline_append_none n.data (joinData ns) hr
          simp only [curOffsetNodes, ih, hr, Option.map_none, joinData, hfull]
          cases hd : rfindNewline n.data with
          | some i =>
              have hi := rfindNewline_lt_length _ _ hd
              have ht := totalLenNodes_eq (n :: ns)
              simp only [joinData] at ht
              simp [ht]
          | none => simp

/-- C10: for every StringBuffer (any buffer with at least one chunk whose
cached len matches its text, as all reachable buffers have), cur_offset()
returns the number of bytes strictly after the last newline of the
buffer's text, and the buffer's total length when the text has no
newline. -/
theorem c10_cur_offset_last_newline (b : StringBuffer) (h : b.nodes ≠ [])
    (hlen : b.len = (joinData b.nodes).length) :
    b.cur_offset = lastLineOffset (joinData b.nodes) := by
  have hdec := joinData_decomp b.nodes h
  have hglast : b.nodes.getLast? = some (b.nodes.getLast h) :=
    List.getLast?_eq_getLast_of_ne_nil h
  have hlast : lastData b.nodes = (b.nodes.getLast h).data := by
    simp [lastData, hglast]
  have hone : curOffsetNodes [b.nodes.getLast h] =
      (rfindNewline (b.nodes.getLast h).data).map
        (fun i => (b.nodes.getLast h).data.length - i - 1) := by
    have := curOffsetNodes_eq [b.nodes.getLast h]
    simpa [joinData] using this
  cases hr : rfindNewline (lastData b.nodes) with
  | some k =>
      have hk := rfindNewline_lt_length _ _ hr
      have hfull : rfindNewline (joinData b.nodes) =
          some ((joinData b.nodes.dropLast).length + k) := by
        rw [hdec]
        exact rfindNewline_append_some _ _ _ hr
      rw [hlast] at hr
      simp only [StringBuffer.cur_offset, hglast, hone, hr, Option.map_some,
        lastLineOffset, hfull]
      rw [hdec]
      rw [← hlast] at hr ⊢
      simp [List.length_append]
      omega
  | none =>
      have hfull : rfindNewline (joinData b.nodes) =
          rfindNewline (joinData b.nodes.dropLast) := by
        rw [hdec]
        exact rfindNewline_append_none _ _ hr
      rw [hlast] at hr
      simp only [StringBuffer.cur_offset, hglast, hone, hr, Option.map_none,
        curOffsetNodes_eq, lastLineOffset, hfull]
      cases hp : rfindNewline (joinData b.nodes.dropLast) with
      | some i =>
          have hi := rfindNewline_lt_length _ _ hp
          have : rfindNewline (joinData b.nodes) = some i := by rw [hfull, hp]
          simp only [this, Option.map_some]
          rw [hdec]
          rw [← hlast] at hr
          have hnone := rfindNewline_append_none (joinData b.nodes.dropLast) (lastData b.nodes) hr
          simp [List.length_append]
      | none =>
          have : rfindNewline (joinData b.nodes) = none := by rw [hfull, hp]
          simp only [this, Option.map_none]
          exact hlen

theorem c10_cur_offset_witness :
    StringBuffer.cur_offset ⟨[⟨[72, 105, 10, 97, 98], 300⟩], 5⟩ =
      lastLineOffset [72, 105, 10, 97, 98] := by
  have h := c10_cur_offset_last_newline ⟨[⟨[72, 105, 10, 97, 98], 300⟩], 5⟩
    (by simp) (by rfl)
  simpa [joinData] using h

set_option maxRecDepth 100000 in
/-- C8: evaluation of impl Clone for StringBuffer at a failing input.  The
buffer is built by the public API (with_capacity(0), push_str of 1 byte,
push_str of 510 bytes) and has three chunk nodes; its clone drops the
middle node, so the clone displays different text than the original even
though the claim asserts clone/original equality for any number of chunk
nodes. -/
theorem c8_clone_drops_middle_node_eval :
    joinData (StringBuffer.clone
        (((StringBuffer.with_capacity 0).push_str [97]).push_str
          (List.replicate 510 120))).nodes ≠
      joinData
        (((StringBuffer.with_capacity 0).push_str [97]).push_str
          (List.replicate 510 120)).nodes := by
  decide

/-- C7: during character iteration, a leading byte whose UTF-8 width-table
lookup is 0 makes Chars::read_char abort fatally, and a decode failure on
the collected bytes of the looked-up width likewise aborts fatally; when
the cursor is on a valid byte of the current node, Chars::next propagates
that fatal abort rather than surfacing any recoverable value. -/
theorem c7_read_char_fatal_on_corruption (s : Chars) (b : Nat) (s1 : Chars)
    (hread : s.read_byte = .ok (b, s1)) :
    (utf8_char_width b = 0 → s.read_char = .fatal) ∧
    (∀ bs s2, 2 ≤ utf8_char_width b →
      Chars.read_bytes (utf8_char_width b - 1) s1 = .ok (bs, s2) →
      decodeUtf8 (b :: bs) = none → s.read_char = .fatal) ∧
    (∀ d rest, s.nodes = d :: rest → s.cur_byte < d.length →
      s.read_char = .fatal → s.next = .fatal) := by
  refine ⟨?_, ?_, ?_⟩
  · intro h0
    simp [Chars.read_char, hread, h0]
  · intro bs s2 h2 hbytes hdec
    have h1 : utf8_char_width b ≠ 1 := by omega
    have h0 : utf8_char_width b ≠ 0 := by omega
    simp [Chars.read_char, hread, h1, h0, hbytes, hdec]
  · intro d rest hnodes hcur hfatal
    have hlen : s.nodes.length = rest.length + 1 := by simp [hnodes]
    rw [Chars.next, hlen]
    simp only [Chars.nextGo, hnodes]
    rw [if_neg (by omega)]
    simp [hfatal]

theorem c7_read_char_witness :
    Chars.read_char ⟨[[128]], 0, 0⟩ = .fatal ∧
    Chars.read_char ⟨[[194, 0]], 0, 0⟩ = .fatal ∧
    Chars.next ⟨[[128]], 0, 0⟩ = .fatal := by
  have h1 := c7_read_char_fatal_on_corruption ⟨[[128]], 0, 0⟩ 128 ⟨[[128]], 1, 1⟩ rfl
  have h2 := c7_read_char_fatal_on_corruption ⟨[[194, 0]], 0, 0⟩ 194 ⟨[[194, 0]], 1, 1⟩ rfl
  have hf1 : Chars.read_char ⟨[[128]], 0, 0⟩ = .fatal := h1.1 (by decide)
  exact ⟨hf1,
    h2.2.1 [0] ⟨[[194, 0]], 2, 2⟩ (by decide) rfl rfl,
    h1.2.2 [128] [] rfl (by decide) hf1⟩

theorem leafSum_eq_text_length :
    (∀ n : Node, n.leafSum = n.text.length) ∧
    (∀ cs : NodeList, cs.leafSumL = cs.textL.length) := by
  refine node_nodelist_ind _ _ ?_ ?_ ?_ ?_
  · intro d; simp [Node.leafSum, Node.text]
  · intro cs len h; simp [Node.leafSum, Node.text, h]
  · simp [NodeList.leafSumL, NodeList.textL]
  · intro n ns hn hns; simp [NodeList.leafSumL, NodeList.textL, hn, hns]

theorem insertN_text :
    (∀ n : Node, ∀ off t, off ≤ n.text.length →
        (n.insertN off t).text = n.text.take off ++ t ++ n.text.drop off) ∧
    (∀ cs : NodeList, ∀ off t, off ≤ cs.textL.length →
        (NodeList.insertL cs off t).textL = cs.textL.take off ++ t ++ cs.textL.drop off) := by
  refine node_nodelist_ind _ _ ?_ ?_ ?_ ?_
  · intro d off t _
    simp only [Node.insertN, Node.text]
    split
    · simp [Node.text, NodeList.textL]
    · simp [Node.text]
  · intro cs len ih off t hoff
    simp only [Node.text] at hoff ⊢
    simp only [Node.insertN, Node.text]
    exact ih off t hoff
  · intro off t hoff
    simp only [NodeList.textL, List.length_nil, Nat.le_zero] at hoff
    subst hoff
    simp [NodeList.insertL, NodeList.textL, Node.text]
  · intro c cs ihc ihcs off t hoff
    have hcl : c.leafSum = c.text.length := leafSum_eq_text_length.1 c
    simp only [NodeList.textL, List.length_append] at hoff
    simp only [NodeList.insertL, hcl]
    by_cases hle : off ≤ c.text.length
    · rw [if_pos hle]
      simp only [NodeList.textL, ihc off t hle]
      rw [List.take_append_of_le_length hle, List.drop_append_of_le_length hle]
      simp [List.append_assoc]
    · rw [if_neg hle]
      have hrec := ihcs (off - c.text.length) t (by omega)
      have h1 : List.take off (c.text ++ cs.textL) =
          c.text ++ List.take (off - c.text.length) cs.textL := by
        rw [List.take_append_eq_append_take, List.take_of_length_le (by omega)]
      have h2 : List.drop off (c.text ++ cs.textL) =
          List.drop (off - c.text.length) cs.textL := by
        rw [List.drop_append_eq_append_drop, List.drop_eq_nil_of_le (by omega),
          List.nil_append]
      simp only [NodeList.textL, hrec, h1, h2, List.append_assoc]

theorem removeN_spec :
    (∀ n : Node, ∀ s e, s < e → e ≤ n.text.length →
        removeResultOk n.text s e (n.removeN s e)) ∧
    (∀ cs : NodeList, ∀ s e, s < e → e ≤ cs.textL.length →
        (NodeList.removeL cs s e).1.textL = cs.textL.take s ++ cs.textL.drop e ∧
        (NodeList.removeL cs s e).2 = (s : Int) - (e : Int)) := by
  refine node_nodelist_ind _ _ ?_ ?_ ?_ ?_
  · intro d s e hse he
    simp only [Node.text] at he ⊢
    simp only [Node.removeN]
    by_cases hfull : s = 0 ∧ d.length ≤ e
    · rw [if_pos hfull]
      simp only [removeResultOk]
      rcases hfull with ⟨h0, hl⟩
      subst h0
      simp [List.drop_eq_nil_of_le hl]
    · rw [if_neg hfull]
      simp only [removeResultOk, Node.text]
      exact ⟨trivial, by omega⟩
  · intro cs len ih s e hse he
    simp only [Node.text] at he ⊢
    simp only [Node.removeN]
    have hq := ih s e hse he
    rcases hr : NodeList.removeL cs s e with ⟨cs1, delta⟩
    rw [hr] at hq
    cases cs1 with
    | nil =>
        simp only [removeResultOk]
        have := hq.1
        simp only [NodeList.textL] at this
        exact this.symm
    | cons c1 cs1t =>
        simp only [removeResultOk, Node.text]
        exact ⟨hq.1, hq.2⟩
  · intro s e hse he
    simp only [NodeList.textL, List.length_nil] at he
    omega
  · intro c cs ihc ihcs s e hse he
    have hcl : c.leafSum = c.text.length := leafSum_eq_text_length.1 c
    simp only [NodeList.textL, List.length_append] at he
    simp only [NodeList.removeL, hcl, NodeList.textL]
    by_cases hskip : c.text.length ≤ s
    · rw [if_pos hskip]
      have hrec := ihcs (s - c.text.length) (e - c.text.length) (by omega) (by omega)
      rcases hr : NodeList.removeL cs (s - c.text.length) (e - c.text.length) with ⟨cs1, delta⟩
      rw [hr] at hrec
      simp only [NodeList.textL]
      constructor
      · rw [hrec.1]
        rw [List.take_append_eq_append_take, List.take_of_length_le hskip,
          List.drop_append_eq_append_drop,
          List.drop_eq_nil_of_le (by omega : c.text.length ≤ e), List.nil_append,
          List.append_assoc]
      · have := hrec.2
        omega
    · rw [if_neg hskip]
      have hs_lt : s < c.text.length := by omega
      by_cases htail : c.text.length < e
      · rw [if_pos htail]
        have hmin : min e c.text.length = c.text.length := by omega
        rw [hmin]
        have hchild := ihc s c.text.length (by omega) (by omega)
        have hrect := ihcs 0 (e - c.text.length) (by omega) (by omega)
        rcases hrt : NodeList.removeL cs 0 (e - c.text.length) with ⟨cs2, d2⟩
        rw [hrt] at hrect
        have hcs2 : cs2.textL = cs.textL.drop (e - c.text.length) := by
          have := hrect.1
          simpa using this
        have hd2 : d2 = (0 : Int) - ((e : Int) - (c.text.length : Int)) := by
          have := hrect.2
          omega
        have hdropw : (c.text ++ cs.textL).drop e = cs.textL.drop (e - c.text.length) := by
          rw [List.drop_append_eq_append_drop,
            List.drop_eq_nil_of_le (by omega : c.text.length ≤ e), List.nil_append]
        rcases hca : c.removeN s c.text.length with _ | _ | ⟨m, dm⟩ | ⟨m, dm⟩
        · rw [hca] at hchild
          simp only [removeResultOk] at hchild
        · rw [hca] at hchild
          simp only [removeResultOk] at hchild
          have hdl : c.text.drop c.text.length = [] := by
            simp
          rw [hdl, List.append_nil] at hchild
          have hlen := congrArg List.length hchild
          rw [List.length_take, List.length_nil] at hlen
          have hs0 : s = 0 := by omega
          subst hs0
          simp only [NodeList.textL]
          constructor
          · rw [hcs2, List.take_zero, List.nil_append, hdropw]
          · omega
        · rw [hca] at hchild
          simp only [removeResultOk] at hchild
          have hdl : c.text.drop c.text.length = [] := by simp
          rw [hdl, List.append_nil] at hchild
          simp only [NodeList.textL]
          constructor
          · rw [hchild.1, hcs2, hdropw,
              List.take_append_of_le_length (by omega : s ≤ c.text.length)]
          · have h1 := hchild.2
            omega
        · rw [hca] at hchild
          simp only [removeResultOk] at hchild
          have hdl : c.text.drop c.text.length = [] := by simp
          rw [hdl, List.append_nil] at hchild
          simp only [NodeList.textL]
          constructor
          · rw [hchild.1, hcs2, hdropw,
              List.take_append_of_le_length (by omega : s ≤ c.text.length)]
          · have h1 := hchild.2
            omega
      · rw [if_neg htail]
        have hmin : min e c.text.length = e := by omega
        rw [hmin]
        have hchild := ihc s e (by omega) (by omega)
        have hdropw : (c.text ++ cs.textL).drop e = c.text.drop e ++ cs.textL := by
          rw [List.drop_append_of_le_length (by omega : e ≤ c.text.length)]
        rcases hca : c.removeN s e with _ | _ | ⟨m, dm⟩ | ⟨m, dm⟩
        · rw [hca] at hchild
          simp only [removeResultOk] at hchild
        · rw [hca] at hchild
          simp only [removeResultOk] at hchild
          have hlen := congrArg List.length hchild
          rw [List.length_append, List.length_take, List.length_drop,
            List.length_nil] at hlen
          have hs0 : s = 0 := by omega
          have hel : e = c.text.length := by omega
          have hde : c.text.drop e = [] := List.drop_eq_nil_of_le (by omega)
          subst hs0
          simp only [NodeList.textL]
          constructor
          · rw [List.take_zero, List.nil_append, hdropw, hde, List.nil_append]
          · omega
        · rw [hca] at hchild
          simp only [removeResultOk] at hchild
          simp only [NodeList.textL]
          constructor
          · rw [hchild.1, hdropw,
              List.take_append_of_le_length (by omega : s ≤ c.text.length),
              List.append_assoc]
          · have h1 := hchild.2
            omega
        · rw [hca] at hchild
          simp only [removeResultOk] at hchild
          simp only [NodeList.textL]
          constructor
          · rw [hchild.1, hdropw,
              List.take_append_of_le_length (by omega : s ≤ c.text.length),
              List.append_assoc]
          · have h1 := hchild.2
            omega

theorem replaceN_text :
    (∀ n : Node, ∀ s t, s + t.length ≤ n.text.length →
        (n.replaceN s t).text = n.text.take s ++ t ++ n.text.drop (s + t.length)) ∧
    (∀ cs : NodeList, ∀ s t, s + t.length ≤ cs.textL.length →
        (NodeList.replaceL cs s t).textL =
          cs.textL.take s ++ t ++ cs.textL.drop (s + t.length)) := by
  refine node_nodelist_ind _ _ ?_ ?_ ?_ ?_
  · intro d s t _
    simp [Node.replaceN, Node.text]
  · intro cs len ih s t hst
    simp only [Node.text] at hst ⊢
    simp only [Node.replaceN, Node.text]
    exact ih s t hst
  · intro s t hst
    simp only [NodeList.textL, List.length_nil, Nat.le_zero, Nat.add_eq_zero] at hst
    have ht : t = [] := List.eq_nil_of_length_eq_zero hst.2
    subst ht
    simp [NodeList.replaceL, NodeList.textL, hst.1]
  · intro c cs ihc ihcs s t hst
    have hcl : c.leafSum = c.text.length := leafSum_eq_text_length.1 c
    simp only [NodeList.textL, List.length_append] at hst
    simp only [NodeList.replaceL, hcl, NodeList.textL]
    by_cases hskip : c.text.length ≤ s
    · rw [if_pos hskip]
      have hrec := ihcs (s - c.text.length) t (by omega)
      simp only [NodeList.textL]
      rw [hrec]
      have h1 : List.take s (c.text ++ cs.textL) =
          c.text ++ List.take (s - c.text.length) cs.textL := by
        rw [List.take_append_eq_append_take, List.take_of_length_le (by omega)]
      have h2 : List.drop (s + t.length) (c.text ++ cs.textL) =
          List.drop (s - c.text.length + t.length) cs.textL := by
        rw [List.drop_append_eq_append_drop, List.drop_eq_nil_of_le (by omega),
          List.nil_append]
        congr 1
        omega
      rw [h1, h2]
      simp [List.append_assoc]
    · rw [if_neg hskip]
      by_cases hfit : s + t.length ≤ c.text.length
      · rw [if_pos hfit]
        have hch := ihc s t hfit
        simp only [NodeList.textL]
        rw [hch,
          List.take_append_of_le_length (by omega : s ≤ c.text.length),
          List.drop_append_of_le_length hfit]
        simp [List.append_assoc]
      · rw [if_neg hfit]
        have ht1len : (t.take (c.text.length - s)).length = c.text.length - s := by
          rw [List.length_take]
          omega
        have hch := ihc s (t.take (c.text.length - s)) (by omega)
        have ht2len : (t.drop (c.text.length - s)).length = t.length - (c.text.length - s) := by
          rw [List.length_drop]
        have hrec := ihcs 0 (t.drop (c.text.length - s)) (by omega)
        simp only [Nat.zero_add] at hrec
        simp only [NodeList.textL]
        rw [hch, hrec]
        have hdropct : c.text.drop (s + (t.take (c.text.length - s)).length) = [] := by
          apply List.drop_eq_nil_of_le
          omega
        rw [hdropct, List.append_nil, List.take_zero, List.nil_append]
        have h1 : List.take s (c.text ++ cs.textL) = List.take s c.text :=
          List.take_append_of_le_length (by omega)
        have h2 : List.drop (s + t.length) (c.text ++ cs.textL) =
            List.drop (s + t.length - c.text.length) cs.textL := by
          rw [List.drop_append_eq_append_drop, List.drop_eq_nil_of_le (by omega),
            List.nil_append]
        rw [h1, h2, ht2len]
        rw [show t.length - (c.text.length - s) = s + t.length - c.text.length by omega]
        rw [List.append_assoc, List.append_assoc]
        congr 1
        rw [← List.append_assoc, List.take_append_drop]

theorem insert_preserves (r : Rope) (off : Nat) (t : List Nat)
    (hinv : r.len = r.root.text.length) (r2 : Rope)
    (h : r.insert off t = .ok r2) : r2.len = r2.root.text.length := by
  by_cases hoff : off ≤ r.len
  · simp only [Rope.insert, if_pos hoff] at h
    injection h with h2
    subst h2
    have htext := insertN_text.1 r.root off t (by omega)
    simp only [htext, List.length_append, List.length_take, List.length_drop]
    omega
  · simp only [Rope.insert, if_neg hoff] at h
    exact absurd h (by simp)

theorem replace_preserves (r : Rope) (s : Nat) (t : List Nat)
    (hinv : r.len = r.root.text.length) (r2 : Rope)
    (h : r.replace_str s t = .ok r2) : r2.len = r2.root.text.length := by
  by_cases hle : s + t.length ≤ r.len
  · simp only [Rope.replace_str, if_pos hle] at h
    injection h with h2
    subst h2
    have htext := replaceN_text.1 r.root s t (by omega)
    simp only [htext, List.length_append, List.length_take, List.length_drop]
    omega
  · simp only [Rope.replace_str, if_neg hle] at h
    exact absurd h (by simp)

theorem remove_preserves (r : Rope) (s e : Nat)
    (hinv : r.len = r.root.text.length) (r2 : Rope)
    (h : r.remove s e = .ok r2) : r2.len = r2.root.text.length := by
  by_cases hbound : r.len < e
  · simp only [Rope.remove, if_pos hbound] at h
    exact absurd h (by simp)
  · simp only [Rope.remove, if_neg hbound, Rope.remove_inner] at h
    by_cases hes : e < s
    · rw [if_pos hes] at h
      exact absurd h (by simp)
    · rw [if_neg hes] at h
      by_cases heq : s = e
      · rw [if_pos heq] at h
        injection h with h2
        subst h2
        exact hinv
      · rw [if_neg heq] at h
        have hrem := removeN_spec.1 r.root s e (by omega) (by omega)
        rcases hca : r.root.removeN s e with _ | _ | ⟨n, d⟩ | ⟨n, d⟩
        · rw [hca] at hrem
          simp only [removeResultOk] at hrem
        · rw [hca] at h
          injection h with h2
          subst h2
          simp [Node.empty_inner, Node.text, NodeList.textL]
        · rw [hca] at h hrem
          simp only [removeResultOk] at hrem
          injection h with h2
          subst h2
          simp only [hrem.1, List.length_append, List.length_take, List.length_drop]
          have hd := hrem.2
          omega
        · rw [hca] at h hrem
          simp only [removeResultOk] at hrem
          injection h with h2
          subst h2
          simp only [hrem.1, List.length_append, List.length_take, List.length_drop]
          have hd := hrem.2
          omega

theorem applyRopeOps_inv (ops : List RopeOp) :
    ∀ r : Rope, r.len = r.root.text.length →
      ∀ r2, applyRopeOps ops r = .ok r2 → r2.len = r2.root.text.length := by
  induction ops with
  | nil =>
      intro r hinv r2 h
      simp only [applyRopeOps] at h
      injection h with h2
      subst h2
      exact hinv
  | cons op ops ih =>
      intro r hinv r2 h
      simp only [applyRopeOps] at h
      cases happ : applyRopeOp r op with
      | ok r1 =>
          rw [happ] at h
          have hinv1 : r1.len = r1.root.text.length := by
            cases op with
            | ins off t => exact insert_preserves r off t hinv r1 happ
            | rem s e => exact remove_preserves r s e hinv r1 happ
            | rep s t => exact replace_preserves r s t hinv r1 happ
          exact ih r1 hinv1 r2 h
      | fatal r1 =>
          rw [happ] at h
          exact absurd h (by simp)

/-- C2: after every finite sequence of insert/remove/replace operations
that runs to completion from the empty rope, the cached rope len equals
the sum of the byte lengths of all leaf chunks of the tree, and equals the
byte length of the full materialized text. -/
theorem c2_rope_length_invariant (ops : List RopeOp) (r : Rope)
    (h : applyRopeOps ops Rope.new = .ok r) :
    r.len = r.root.leafSum ∧ r.len = r.root.text.length := by
  have hnew : Rope.new.len = Rope.new.root.text.length := by
    simp [Rope.new, Node.empty_inner, Node.text, NodeList.textL]
  have hr := applyRopeOps_inv ops Rope.new hnew r h
  exact ⟨by rw [leafSum_eq_text_length.1, hr], hr⟩

theorem c2_rope_length_invariant_witness :
    (Rope.mk (.internal (.cons (.leaf [97, 98]) .nil) 2) 2).len =
        (Rope.mk (.internal (.cons (.leaf [97, 98]) .nil) 2) 2).root.leafSum ∧
      (Rope.mk (.internal (.cons (.leaf [97, 98]) .nil) 2) 2).len =
        (Rope.mk (.internal (.cons (.leaf [97, 98]) .nil) 2) 2).root.text.length :=
  c2_rope_length_invariant [RopeOp.ins 0 [97, 98]]
    (Rope.mk (.internal (.cons (.leaf [97, 98]) .nil) 2) 2) rfl

/-- C3: for every rope and every x with x at most len, slice(x..x) returns
the canonical empty slice, whose byte iteration immediately yields None;
this covers x = len and the empty rope. -/
theorem c3_slice_empty_range (r : Rope) (x : Nat) (_hx : x ≤ r.len) :
    r.slice x x = RopeSlice.empty ∧ RopeSlice.next RopeSlice.empty = none := by
  constructor
  · simp [Rope.slice]
  · rfl

theorem c3_slice_empty_range_witness :
    Rope.new.slice 0 0 = RopeSlice.empty ∧ RopeSlice.next RopeSlice.empty = none :=
  c3_slice_empty_range Rope.new 0 (by decide)

/-- C4: for every rope and every x with x at most len, remove(x, x) is a
no-op: the returned rope is the argument itself (root, cached length and
text unchanged), and remove_inner returns it without invoking the removal
closure, whatever that closure is. -/
theorem c4_remove_empty_range_noop (r : Rope) (x : Nat)
    (f : Rope → NodeAction) (hx : x ≤ r.len) :
    Rope.remove_inner r x x f = .ok r ∧ r.remove x x = .ok r := by
  have hinner : Rope.remove_inner r x x f = .ok r := by
    simp [Rope.remove_inner]
  refine ⟨hinner, ?_⟩
  simp only [Rope.remove, if_neg (by omega : ¬r.len < x)]
  simp [Rope.remove_inner]

theorem c4_remove_empty_range_noop_witness :
    Rope.remove_inner Rope.new 0 0 (fun _ => NodeAction.none) = .ok Rope.new ∧
      Rope.new.remove 0 0 = .ok Rope.new :=
  c4_remove_empty_range_noop Rope.new 0 (fun _ => NodeAction.none) (by decide)

/-- C5: replace_str with start + new_str.len() at most len() succeeds, does
not change the cached len (the returned rope carries len unchanged), makes
the text the in-place overwrite of the region, and that region reads back
as new_str; with start + new_str.len() beyond len() the call aborts
fatally, mutating nothing. -/
theorem c5_replace_str_spec (r : Rope) (s : Nat) (t : List Nat)
    (hinv : r.len = r.root.text.length) :
    (s + t.length ≤ r.len →
      r.replace_str s t = .ok { root := r.root.replaceN s t, len := r.len } ∧
      (r.root.replaceN s t).text =
        r.root.text.take s ++ t ++ r.root.text.drop (s + t.length) ∧
      ((r.root.replaceN s t).text.drop s).take t.length = t) ∧
    (r.len < s + t.length → r.replace_str s t = .fatal r) := by
  constructor
  · intro hle
    have htext := replaceN_text.1 r.root s t (by omega)
    refine ⟨by simp [Rope.replace_str, hle], htext, ?_⟩
    rw [htext, List.append_assoc,
      List.drop_left' (by rw [List.length_take]; omega), List.take_left]
  · intro hgt
    simp only [Rope.replace_str, if_neg (by omega : ¬s + t.length ≤ r.len)]

theorem c5_replace_str_witness :
    ((Rope.mk (.leaf [97, 98, 99, 100]) 4).replace_str 1 [120, 121] =
        .ok { root := (Node.leaf [97, 98, 99, 100]).replaceN 1 [120, 121], len := 4 } ∧
      (((Node.leaf [97, 98, 99, 100]).replaceN 1 [120, 121]).text.drop 1).take 2 =
        [120, 121]) ∧
    (Rope.mk (.leaf [97, 98, 99, 100]) 4).replace_str 3 [120, 121] =
      .fatal (Rope.mk (.leaf [97, 98, 99, 100]) 4) := by
  have h1 := (c5_replace_str_spec (Rope.mk (.leaf [97, 98, 99, 100]) 4) 1
    [120, 121] rfl).1 (by decide)
  have h2 := (c5_replace_str_spec (Rope.mk (.leaf [97, 98, 99, 100]) 4) 3
    [120, 121] rfl).2 (by decide)
  exact ⟨⟨h1.1, h1.2.2⟩, h2⟩

/-- C6: for every rope, remove with end < start aborts fatally (the
assert!(end >= start) of remove_inner), before any mutation: the reported
state is the argument rope itself, with root and cached length untouched,
and the removal closure is never consulted. -/
theorem c6_remove_end_lt_start_fatal (r : Rope) (s e : Nat)
    (f : Rope → NodeAction) (he : e < s) :
    r.remove s e = .fatal r ∧ Rope.remove_inner r s e f = .fatal r := by
  have hinner : Rope.remove_inner r s e f = .fatal r := by
    simp [Rope.remove_inner, he]
  refine ⟨?_, hinner⟩
  by_cases hb : r.len < e
  · simp [Rope.remove, hb]
  · simp only [Rope.remove, if_neg hb]
    simp [Rope.remove_inner, he]

theorem c6_remove_end_lt_start_fatal_witness :
    Rope.new.remove 2 1 = .fatal Rope.new ∧
      Rope.remove_inner Rope.new 2 1 (fun _ => NodeAction.none) = .fatal Rope.new :=
  c6_remove_end_lt_start_fatal Rope.new 2 1 (fun _ => NodeAction.none) (by decide)

/-- C1: evaluation of the RopeSlice byte iterator at a failing input.  The
slice is exactly what slicing [0, 2) of a one-leaf rope with text
"abcd" produces (nodes = [the leaf], start trim 0, end_len 2).  The claim
requires the iteration to stop after end_len = 2 bytes (yielding 97, 98);
the iterator instead yields all four leaf bytes, because next() never
consults the slice's len field and applies its last-node cutoff only when
start > 0 (and then against node.len - start). -/
theorem c1_ropeslice_iter_ignores_end_len_eval :
    (Rope.mk (.leaf [97, 98, 99, 100]) 4).slice 0 2 =
      { nodes := [[97, 98, 99, 100]], start := 0, len := 2,
        cur_byte := 0, cur_node := 0 } ∧
    RopeSlice.bytes 8
      { nodes := [[97, 98, 99, 100]], start := 0, len := 2,
        cur_byte := 0, cur_node := 0 } = [97, 98, 99, 100] :=
  ⟨rfl, rfl⟩
